import Mathlib

/-!
Shallow embedding of the gomorphy Russian morphological analyzer
(package `gomorphy` / `morph`, file `dawg.go`): a DAWG dictionary reader,
a completion enumerator, the words index, and the paradigm-based
morphology engine (WordForms, Tag, inflect, inflectAdj,
PhraseFormsConcordant).

Modelling conventions:
- A Go string is a `List Char` (`GoStr`).  Go slices strings by byte
  index; since all affixes in the source are valid UTF-8 strings, byte
  prefix/suffix/slicing coincides with character-level operations, so
  the character-level model is faithful.
- Go `uint32` values are `Nat` with explicit masking by `0xFFFFFFFF`.
- A Go run-time panic (slice index out of range, slice bounds inverted)
  is modelled as `Option.none`; a regular "not found" result keeps the
  form the source uses (`some none`, `some []`, empty string, ...).
- Unbounded loops (the completer enumeration) take an explicit fuel
  argument; exhausting fuel is also `none`.
-/

abbrev GoStr := List Char

def gs (s : String) : GoStr := s.toList

/-- Model of Go `unicode.IsSpace` restricted to the common ASCII
whitespace characters that can occur in the analyzer's inputs. -/
def isSpaceGo (c : Char) : Bool :=
  c == ' ' || c == '\t' || c == '\n' || c == Char.ofNat 11 || c == Char.ofNat 12 || c == Char.ofNat 13

/-- Model of Go `strings.TrimSpace`. -/
def trimSpaceGo (s : GoStr) : GoStr :=
  ((s.dropWhile isSpaceGo).reverse.dropWhile isSpaceGo).reverse

/-- Model of Go `strings.ToLower` restricted to ASCII and Cyrillic,
identity on all other characters (sufficient for the analyzer's
Russian/ASCII domain). -/
def toLowerChar (c : Char) : Char :=
  if 'A' ≤ c ∧ c ≤ 'Z' then Char.ofNat (c.toNat + 32)
  else if 'А' ≤ c ∧ c ≤ 'Я' then Char.ofNat (c.toNat + 32)
  else if c = 'Ё' then 'ё'
  else c

def toLowerGo (s : GoStr) : GoStr := s.map toLowerChar

/-- Model of Go `strings.Fields`: split on runs of whitespace. -/
def fieldsAux : GoStr → GoStr → List GoStr
  | [], acc => if acc = [] then [] else [acc.reverse]
  | c :: rest, acc =>
    if isSpaceGo c then
      if acc = [] then fieldsAux rest [] else acc.reverse :: fieldsAux rest []
    else fieldsAux rest (c :: acc)

def fieldsGo (s : GoStr) : List GoStr := fieldsAux s []

/-- Model of Go `strings.Join(xs, " ")`. -/
def joinSpace (xs : List GoStr) : GoStr := List.intercalate [' '] xs

/-- Model of Go `strings.Contains s sub`: substring containment. -/
def containsGo (s sub : GoStr) : Bool := s.tails.any fun t => sub.isPrefixOf t

/-- UTF-8 encoding of one character (Go `[]byte(string)` is UTF-8). -/
def charUtf8 (c : Char) : List Nat :=
  let n := c.toNat
  if n < 0x80 then [n]
  else if n < 0x800 then [0xC0 ||| (n >>> 6), 0x80 ||| (n &&& 0x3F)]
  else if n < 0x10000 then
    [0xE0 ||| (n >>> 12), 0x80 ||| ((n >>> 6) &&& 0x3F), 0x80 ||| (n &&& 0x3F)]
  else
    [0xF0 ||| (n >>> 18), 0x80 ||| ((n >>> 12) &&& 0x3F),
     0x80 ||| ((n >>> 6) &&& 0x3F), 0x80 ||| (n &&& 0x3F)]

/-- Model of Go `[]byte(word)`. -/
def strBytes (s : GoStr) : List Nat := (s.map charUtf8).flatten

/-! ## DAWG unit bit fields (`dawg.go`, constants and unit accessors) -/

def precisionMask : Nat := 0xFFFFFFFF
def isLeafBit : Nat := 0x80000000
def hasLeafBit : Nat := 0x100
def extensionBit : Nat := 0x200

def unitHasLeaf (u : Nat) : Bool := u &&& hasLeafBit ≠ 0

/-- `unitValue(u) = u & ^isLeafBit` (complement of bit 31 within uint32). -/
def unitValue (u : Nat) : Nat := u &&& 0x7FFFFFFF

def unitLabel (u : Nat) : Nat := u &&& (isLeafBit ||| 0xFF)

/-- `unitOffset(u) = ((u >> 10) << ((u & extensionBit) >> 6)) & precisionMask`. -/
def unitOffset (u : Nat) : Nat :=
  ((u >>> 10) <<< ((u &&& extensionBit) >>> 6)) &&& precisionMask

/-! ## DAWG dictionary -/

structure dictionary where
  units : List Nat
deriving DecidableEq

def dictionary.hasValue (d : dictionary) (index : Nat) : Option Bool :=
  (d.units[index]?).map unitHasLeaf

def dictionary.value (d : dictionary) (index : Nat) : Option Nat :=
  match d.units[index]? with
  | none => none
  | some u =>
    let vi := (index ^^^ unitOffset u) &&& precisionMask
    (d.units[vi]?).map unitValue

/-- `followChar`: outer `none` is a Go panic (unit array read out of
range); `some none` is the Go `(0, false)` missing-arc result. -/
def dictionary.followChar (d : dictionary) (label index : Nat) :
    Option (Option Nat) :=
  match d.units[index]? with
  | none => none
  | some u =>
    let next := (index ^^^ unitOffset u ^^^ label) &&& precisionMask
    match d.units[next]? with
    | none => none
    | some u2 => if unitLabel u2 = label then some (some next) else some none

def dictionary.followBytes (d : dictionary) (b : List Nat) (index : Nat) :
    Option (Option Nat) :=
  match b with
  | [] => some (some index)
  | ch :: rest =>
    match d.followChar ch index with
    | none => none
    | some none => some none
    | some (some next) => d.followBytes rest next

/-! ## Guide -/

structure guide where
  units : List Nat
deriving DecidableEq

def guide.child (g : guide) (index : Nat) : Option Nat := g.units[index * 2]?

def guide.sibling (g : guide) (index : Nat) : Option Nat := g.units[index * 2 + 1]?

/-! ## Completer -/

structure completer where
  Key : List Nat
  indexStack : List Nat
  lastIndex : Nat
deriving DecidableEq

/-- `completer.follow`: on a successful arc, push the label on the key
and the next index on the stack; on a missing arc return index `0`
with the state unchanged (exactly the Go code). -/
def cFollow (d : dictionary) (st : completer) (label index : Nat) :
    Option (completer × Nat) :=
  match d.followChar label index with
  | none => none
  | some none => some (st, 0)
  | some (some next) =>
    some ({ st with Key := st.Key ++ [label], indexStack := next :: st.indexStack }, next)

/-- `completer.findTerminal`: descend along guide child labels until a
unit with a value is reached.  `fuel` bounds the loop. -/
def findTerminal (d : dictionary) (g : guide) :
    Nat → completer → Nat → Option (completer × Bool)
  | 0, _, _ => none
  | fuel + 1, st, index =>
    match d.hasValue index with
    | none => none
    | some true => some ({ st with lastIndex := index }, true)
    | some false =>
      match g.child index with
      | none => none
      | some label =>
        match d.followChar label index with
        | none => none
        | some none => some (st, false)
        | some (some next) =>
          findTerminal d g fuel
            { st with Key := st.Key ++ [label], indexStack := next :: st.indexStack } next

/-- The ascend-and-sibling loop of `completer.next`, on the raw key and
stack (the `lastIndex` field is untouched by the loop).  Result
`(key, stack, none)` is Go `return false`; `(key, stack, some idx)`
continues to `findTerminal idx`.  The loop pops one stack entry per
turn. -/
def ascendAux (d : dictionary) (g : guide) :
    List Nat → List Nat → Nat → Option (List Nat × List Nat × Option Nat)
  | key, stack, index =>
    match g.sibling index with
    | none => none
    | some sl =>
      let key2 := if key.length > 0 then key.dropLast else key
      match stack with
      | [] => none
      | _ :: rest =>
        match rest with
        | [] => some (key2, rest, none)
        | newTop :: _ =>
          if sl ≠ 0 then
            match d.followChar sl newTop with
            | none => none
            | some none => some (key2, rest, none)
            | some (some next) =>
              if next = 0 then some (key2 ++ [sl], next :: rest, none)
              else some (key2 ++ [sl], next :: rest, some next)
          else ascendAux d g key2 rest newTop

def ascendLoop (d : dictionary) (g : guide) (st : completer) (index : Nat) :
    Option (completer × Option Nat) :=
  match ascendAux d g st.Key st.indexStack index with
  | none => none
  | some (key2, stack2, r) =>
    some ({ st with Key := key2, indexStack := stack2 }, r)

/-- `completer.next`. -/
def cNext (d : dictionary) (g : guide) (fuel : Nat) (st : completer) :
    Option (completer × Bool) :=
  match st.indexStack with
  | [] => some (st, false)
  | index :: _ =>
    if st.lastIndex ≠ 0 then
      match g.child index with
      | none => none
      | some childLabel =>
        if childLabel ≠ 0 then
          match cFollow d st childLabel index with
          | none => none
          | some (st2, idx2) =>
            if idx2 = 0 then some (st2, false) else findTerminal d g fuel st2 idx2
        else
          match ascendLoop d g st index with
          | none => none
          | some (st2, none) => some (st2, false)
          | some (st2, some idx2) => findTerminal d g fuel st2 idx2
    else findTerminal d g fuel st index

/-! ## Base64 (model of Go `base64.StdEncoding.DecodeString`) -/

def b64Val (c : Nat) : Option Nat :=
  if 65 ≤ c ∧ c ≤ 90 then some (c - 65)
  else if 97 ≤ c ∧ c ≤ 122 then some (c - 97 + 26)
  else if 48 ≤ c ∧ c ≤ 57 then some (c - 48 + 52)
  else if c = 43 then some 62
  else if c = 47 then some 63
  else none

def b64DecodeBlocks : List Nat → Option (List Nat)
  | [] => some []
  | a :: b :: c :: d :: rest =>
    match b64Val a, b64Val b with
    | some va, some vb =>
      if c = 61 then
        if d = 61 ∧ rest = [] then some [((va <<< 6) ||| vb) >>> 4]
        else none
      else
        match b64Val c with
        | none => none
        | some vc =>
          if d = 61 then
            if rest = [] then
              let n := (va <<< 18) ||| (vb <<< 12) ||| (vc <<< 6)
              some [n >>> 16, (n >>> 8) &&& 0xFF]
            else none
          else
            match b64Val d with
            | none => none
            | some vd =>
              let n := (va <<< 18) ||| (vb <<< 12) ||| (vc <<< 6) ||| vd
              (b64DecodeBlocks rest).map
                (fun tail => (n >>> 16) :: ((n >>> 8) &&& 0xFF) :: (n &&& 0xFF) :: tail)
    | _, _ => none
  | _ => none

/-! ## Words index -/

def dawgPayloadSep : Nat := 0x01

structure wordEntry where
  paradigmID : Nat
  formIdx : Nat
deriving DecidableEq

structure wordsDawg where
  dict : dictionary
  guide : guide
deriving DecidableEq

/-- The `for c.next()` loop of `wordsDawg.get`: collect completions,
strip an optional trailing newline, base64-decode, skip short or
malformed payloads, read two big-endian uint16 values. -/
def getLoop (wd : wordsDawg) : Nat → completer → List wordEntry → Option (List wordEntry)
  | 0, _, _ => none
  | fuel + 1, st, acc =>
    match cNext wd.dict wd.guide (fuel + 1) st with
    | none => none
    | some (_, false) => some acc
    | some (st2, true) =>
      let key := if st2.Key ≠ [] ∧ st2.Key.getLast? = some 10 then st2.Key.dropLast else st2.Key
      match b64DecodeBlocks key with
      | none => getLoop wd fuel st2 acc
      | some decoded =>
        if decoded.length < 4 then getLoop wd fuel st2 acc
        else
          getLoop wd fuel st2
            (acc ++ [⟨(decoded.getD 0 0) <<< 8 ||| decoded.getD 1 0,
                     (decoded.getD 2 0) <<< 8 ||| decoded.getD 3 0⟩])

/-- `wordsDawg.get`: follow the word bytes, the payload separator, then
enumerate completions. -/
def wordsDawg.get (wd : wordsDawg) (fuel : Nat) (word : GoStr) :
    Option (List wordEntry) :=
  match wd.dict.followBytes (strBytes word) 0 with
  | none => none
  | some none => some []
  | some (some idx) =>
    match wd.dict.followChar dawgPayloadSep idx with
    | none => none
    | some none => some []
    | some (some idx2) =>
      getLoop wd fuel { Key := [], indexStack := [idx2], lastIndex := 0 } []

/-! ## Analyzer -/

structure Analyzer where
  words : wordsDawg
  paradigms : List (List Nat)
  suffixes : List GoStr
  gramtab : List GoStr
deriving DecidableEq

/-- The three fixed paradigm prefixes (`paradigmPrefixes` in the source). -/
def paradigmPrefixes : List GoStr := [gs "", gs "по", gs "наи"]

/-- The `serviceWords` set of the source, as a list. -/
def serviceWordsList : List GoStr :=
  [gs "в", gs "во", gs "на", gs "по", gs "из", gs "за",
   gs "от", gs "до", gs "об", gs "обо", gs "при", gs "про",
   gs "над", gs "под", gs "без", gs "для", gs "через",
   gs "между", gs "среди", gs "около", gs "после", gs "перед",
   gs "вокруг", gs "против", gs "вместо", gs "кроме",
   gs "с", gs "со", gs "к", gs "ко", gs "о",
   gs "и", gs "или", gs "но", gs "а", gs "не", gs "ни",
   gs "как", gs "что", gs "это"]

def isServiceWord (w : GoStr) : Bool := serviceWordsList.contains w

/-! ## Tag parsing helpers -/

/-- `tagPOS`: prefix of the tag up to the first comma or space. -/
def tagPOS (tag : GoStr) : GoStr := tag.takeWhile (fun c => c ≠ ',' ∧ c ≠ ' ')

/-- `tagGrammeme`: first candidate that occurs in the tag as a substring. -/
def tagGrammeme (tag : GoStr) : List GoStr → GoStr
  | [] => []
  | g :: rest => if containsGo tag g then g else tagGrammeme tag rest

/-- `tagMatches`: substring containment for every non-empty constraint. -/
def tagMatches (tag cas number gender animacy : GoStr) : Bool :=
  (cas.isEmpty || containsGo tag cas) &&
  (number.isEmpty || containsGo tag number) &&
  (gender.isEmpty || containsGo tag gender) &&
  (animacy.isEmpty || containsGo tag animacy)

/-! ## Morphology engine -/

/-- `Analyzer.extractStem`.  Outer `none` is a Go panic (table index out
of range, or the slice `word[len(prefix) : len(word)-len(suffix)]` with
inverted bounds); `some none` is the Go `("", false)` result.  The Go
guard `len(stem) < 0` is kept verbatim: `stem.length < 0` on `Nat`. -/
def Analyzer.extractStem (a : Analyzer) (word : GoStr) (para : List Nat)
    (n formIdx : Nat) : Option (Option GoStr) :=
  match para[formIdx]? with
  | none => none
  | some sid =>
    match a.suffixes[sid]? with
    | none => none
    | some suffix =>
      match para[2 * n + formIdx]? with
      | none => none
      | some pid =>
        match paradigmPrefixes[pid]? with
        | none => none
        | some pre =>
          if pre.isPrefixOf word ∧ suffix.isSuffixOf word then
            if pre.length ≤ word.length - suffix.length then
              let stem := (word.take (word.length - suffix.length)).drop pre.length
              if stem.length < 0 then some none else some (some stem)
            else none
          else some none

/-- The form-materialisation loop of `WordForms`: for each `i`, build
`paradigmPrefixes[para[2n+i]] + stem + suffixes[para[i]]` and append it
unless already seen (the Go seen-map holds exactly the appended forms). -/
def buildFormsAux (a : Analyzer) (para : List Nat) (n : Nat) (stem : GoStr) :
    List Nat → List GoStr → Option (List GoStr)
  | [], acc => some acc
  | i :: rest, acc =>
    match para[2 * n + i]? with
    | none => none
    | some pid =>
      match paradigmPrefixes[pid]? with
      | none => none
      | some pre =>
        match para[i]? with
        | none => none
        | some sid =>
          match a.suffixes[sid]? with
          | none => none
          | some suffix =>
            let f := pre ++ stem ++ suffix
            buildFormsAux a para n stem rest (if f ∈ acc then acc else acc ++ [f])

/-- `Analyzer.WordForms`.  The Go code reassigns `word` to its
normalized form; here the normalized word is written out in place. -/
def Analyzer.WordForms (a : Analyzer) (fuel : Nat) (word : GoStr) :
    Option (List GoStr) :=
  if toLowerGo (trimSpaceGo word) = [] then some []
  else
    match a.words.get fuel (toLowerGo (trimSpaceGo word)) with
    | none => none
    | some [] => some []
    | some (e :: _) =>
      match a.paradigms[e.paradigmID]? with
      | none => none
      | some para =>
        let n := para.length / 3
        if e.formIdx ≥ n then some []
        else
          match a.extractStem (toLowerGo (trimSpaceGo word)) para n e.formIdx with
          | none => none
          | some none => some []
          | some (some stem) => buildFormsAux a para n stem (List.range n) []

/-- `Analyzer.Tag`.  Note: the source performs no `formIdx ≥ n` check
here; it reads `para[n + formIdx]` directly. -/
def Analyzer.Tag (a : Analyzer) (fuel : Nat) (word : GoStr) : Option GoStr :=
  match a.words.get fuel (toLowerGo (trimSpaceGo word)) with
  | none => none
  | some [] => some []
  | some (e :: _) =>
    match a.paradigms[e.paradigmID]? with
    | none => none
    | some para =>
      let n := para.length / 3
      match para[n + e.formIdx]? with
      | none => none
      | some tagID =>
        if tagID ≥ a.gramtab.length then some []
        else some (a.gramtab.getD tagID [])

/-- The scan loop of `inflect`: first form whose tag matches. -/
def inflectScan (a : Analyzer) (para : List Nat) (n : Nat)
    (stem word cas number gender animacy : GoStr) :
    List Nat → Option GoStr
  | [] => some word
  | i :: rest =>
    match para[n + i]? with
    | none => none
    | some tid =>
      match a.gramtab[tid]? with
      | none => none
      | some tag =>
        if tagMatches tag cas number gender animacy then
          match para[2 * n + i]? with
          | none => none
          | some pid =>
            match paradigmPrefixes[pid]? with
            | none => none
            | some pre =>
              match para[i]? with
              | none => none
              | some sid =>
                match a.suffixes[sid]? with
                | none => none
                | some suffix => some (pre ++ stem ++ suffix)
        else inflectScan a para n stem word cas number gender animacy rest

/-- `Analyzer.inflect`.  The source does not normalize `word` here. -/
def Analyzer.inflect (a : Analyzer) (fuel : Nat)
    (word cas number gender animacy : GoStr) : Option GoStr :=
  match a.words.get fuel word with
  | none => none
  | some [] => some word
  | some (e :: _) =>
    match a.paradigms[e.paradigmID]? with
    | none => none
    | some para =>
      let n := para.length / 3
      match a.extractStem word para n e.formIdx with
      | none => none
      | some none => some word
      | some (some stem) =>
        inflectScan a para n stem word cas number gender animacy (List.range n)

/-- `Analyzer.inflectAdj`: the Russian accusative rule, then `inflect`
with gender cleared for plural and empty animacy. -/
def Analyzer.inflectAdj (a : Analyzer) (fuel : Nat)
    (word cas number gender animacy : GoStr) : Option GoStr :=
  let effectiveCas :=
    if cas = gs "accs" then
      if number = gs "plur" then
        if animacy = gs "inan" then gs "nomn" else gs "gent"
      else if number = gs "sing" ∧ gender = gs "masc" then
        if animacy = gs "inan" then gs "nomn" else gs "gent"
      else if number = gs "sing" ∧ gender = gs "neut" then gs "nomn"
      else cas
    else cas
  let g := if number = gs "plur" then [] else gender
  a.inflect fuel word effectiveCas number g []

/-! ## Phrase concordance -/

structure wordInfo where
  pos : GoStr
  animacy : GoStr
  gender : GoStr
deriving DecidableEq

def emptyInfo : wordInfo := ⟨[], [], []⟩

/-- The info-gathering loop of `PhraseFormsConcordant`: service words and
words with an empty tag keep the zero-valued info. -/
def computeInfos (a : Analyzer) (fuel : Nat) : List GoStr → Option (List wordInfo)
  | [] => some []
  | w :: rest =>
    match (if isServiceWord w then some ([] : GoStr) else a.Tag fuel w) with
    | none => none
    | some tag =>
      let info :=
        if isServiceWord w ∨ tag = [] then emptyInfo
        else
          { pos := tagPOS tag,
            animacy := tagGrammeme tag [gs "anim", gs "inan"],
            gender := tagGrammeme tag [gs "masc", gs "femn", gs "neut"] }
      (computeInfos a fuel rest).map (info :: ·)

def isHeadPos (p : GoStr) : Bool := p == gs "NOUN" || p == gs "NPRO"

/-- The `headIdx` computed by the info loop: the last index whose POS is
NOUN or NPRO (`none` models Go `-1`). -/
def headIdxOf (infos : List wordInfo) : Option Nat :=
  (List.range infos.length).foldl
    (fun acc i => if isHeadPos (infos.getD i emptyInfo).pos then some i else acc) none

/-- Append each form not already present (the flatten branch inner loop). -/
def addAll : List GoStr → List GoStr → List GoStr
  | [], acc => acc
  | f :: fs, acc => addAll fs (if f ∈ acc then acc else acc ++ [f])

/-- The no-head flatten branch: word forms of every non-service token. -/
def flattenLoop (a : Analyzer) (fuel : Nat) :
    List GoStr → List GoStr → Option (List GoStr)
  | [], acc => some acc
  | w :: rest, acc =>
    if isServiceWord w then flattenLoop a fuel rest acc
    else
      match a.WordForms fuel w with
      | none => none
      | some fs => flattenLoop a fuel rest (addAll fs acc)

/-- Decline one token for a fixed (case, number), per the source switch. -/
def declineWord (a : Analyzer) (fuel : Nat) (info head : wordInfo)
    (cas number w : GoStr) : Option GoStr :=
  if isServiceWord w then some w
  else if info.pos = gs "NOUN" ∨ info.pos = gs "NPRO" then
    a.inflect fuel w cas number [] []
  else if info.pos = gs "ADJF" ∨ info.pos = gs "PRTF" then
    a.inflectAdj fuel w cas number head.gender head.animacy
  else some w

def declineAll (a : Analyzer) (fuel : Nat) (head : wordInfo)
    (cas number : GoStr) : List (GoStr × wordInfo) → Option (List GoStr)
  | [] => some []
  | (w, info) :: rest =>
    match declineWord a fuel info head cas number w with
    | none => none
    | some d => (declineAll a fuel head cas number rest).map (d :: ·)

def casesList : List GoStr :=
  [gs "nomn", gs "gent", gs "datv", gs "accs", gs "ablt", gs "loct"]

def numbersList : List GoStr := [gs "sing", gs "plur"]

/-- Inner loop over the six cases for one number. -/
def pfcCaseLoop (a : Analyzer) (fuel : Nat) (pairs : List (GoStr × wordInfo))
    (head : wordInfo) (number : GoStr) :
    List GoStr → List GoStr → Option (List GoStr)
  | [], acc => some acc
  | cas :: rest, acc =>
    match declineAll a fuel head cas number pairs with
    | none => none
    | some declined =>
      let form := joinSpace declined
      pfcCaseLoop a fuel pairs head number rest (if form ∈ acc then acc else acc ++ [form])

/-- Outer loop over the two numbers. -/
def pfcProductLoop (a : Analyzer) (fuel : Nat) (pairs : List (GoStr × wordInfo))
    (head : wordInfo) : List GoStr → List GoStr → Option (List GoStr)
  | [], acc => some acc
  | number :: rest, acc =>
    match pfcCaseLoop a fuel pairs head number casesList acc with
    | none => none
    | some acc2 => pfcProductLoop a fuel pairs head rest acc2

/-- `Analyzer.PhraseFormsConcordant`. -/
def Analyzer.PhraseFormsConcordant (a : Analyzer) (fuel : Nat) (phrase : GoStr) :
    Option (List GoStr) :=
  match fieldsGo (toLowerGo (trimSpaceGo phrase)) with
  | [] => some []
  | [w] =>
    match a.WordForms fuel w with
    | none => none
    | some [] => some [w]
    | some (f :: fs) => some (f :: fs)
  | w1 :: w2 :: ws =>
    match computeInfos a fuel (w1 :: w2 :: ws) with
    | none => none
    | some infos =>
      match headIdxOf infos with
      | none => flattenLoop a fuel (w1 :: w2 :: ws) [toLowerGo (trimSpaceGo phrase)]
      | some h =>
        pfcProductLoop a fuel ((w1 :: w2 :: ws).zip infos) (infos.getD h emptyInfo)
          numbersList [toLowerGo (trimSpaceGo phrase)]

/-! ## Spec-side definitions (written from the specification's words,
for comparison with the embedded source) -/

/-- Spec: the effective case computed by the adjective accusative rule
(claim C7's table). -/
def effCaseSpec (cas number gender animacy : GoStr) : GoStr :=
  if cas = gs "accs" then
    if number = gs "plur" then
      if animacy = gs "inan" then gs "nomn" else gs "gent"
    else if number = gs "sing" then
      if gender = gs "masc" then
        if animacy = gs "inan" then gs "nomn" else gs "gent"
      else if gender = gs "neut" then gs "nomn"
      else cas
    else cas
  else cas

/-- Spec: form `i` of the paradigm, rebuilt from the stem
(`PARADIGM_PREFIXES[para[2N+i]] + stem + suffixes[para[i]]`). -/
def specForm (a : Analyzer) (para : List Nat) (n : Nat) (stem : GoStr) (i : Nat) : GoStr :=
  paradigmPrefixes.getD (para.getD (2 * n + i) 0) [] ++ stem ++
    a.suffixes.getD (para.getD i 0) []

/-- Spec: the list of all materialised forms, in index order. -/
def specFormsList (a : Analyzer) (para : List Nat) (n : Nat) (stem : GoStr) : List GoStr :=
  (List.range n).map (specForm a para n stem)

/-- Spec: de-duplication keeping the first occurrence of each element,
preserving order. -/
def dedupFirst : List GoStr → List GoStr
  | [] => []
  | x :: xs => x :: dedupFirst (xs.filter (· ≠ x))
  termination_by l => l.length
  decreasing_by
    simp only [List.length_cons]
    exact Nat.lt_succ_of_le (List.length_filter_le _ _)

/-- Spec: scan `i = 0..N` and return the first form whose tag matches,
or the word unchanged (claim C8, written from the spec text). -/
def inflectSpecAux (a : Analyzer) (para : List Nat) (n : Nat)
    (stem word cas number gender animacy : GoStr) : List Nat → GoStr
  | [] => word
  | i :: rest =>
    if tagMatches (a.gramtab.getD (para.getD (n + i) 0) []) cas number gender animacy then
      specForm a para n stem i
    else inflectSpecAux a para n stem word cas number gender animacy rest

def inflectSpec (a : Analyzer) (para : List Nat) (n : Nat)
    (stem word cas number gender animacy : GoStr) : GoStr :=
  inflectSpecAux a para n stem word cas number gender animacy (List.range n)

/-! ## Concrete dictionaries used by counterexamples and witnesses

`concreteUnits`/`concreteGuide` encode a DAWG holding the single key
"b" (byte 0x62) with payload completion "AAAAAQ==", i.e. the base64 of
the big-endian bytes [0,0,0,1]: entry (paradigmID 0, formIdx 1). -/

def concreteUnits : List Nat :=
  [0x18C00, 0x862, 0x10001, 0x11841, 0x10041, 0x10841, 0x10041, 0x17841,
   0xF051, 0xF83D, 0x13D]

def concreteGuide : List Nat :=
  [0, 0, 0, 0, 0x41, 0, 0x41, 0, 0x41, 0, 0x41, 0, 0x41, 0, 0x51, 0,
   0x3D, 0, 0x3D, 0, 0, 0]

def wdC : wordsDawg := ⟨⟨concreteUnits⟩, ⟨concreteGuide⟩⟩

/-- A well-formed analyzer: word "b" has entry (0, 1); paradigm 0 has
two forms, suffixes "a"/"b", both with the empty paradigm prefix. -/
def aConc : Analyzer :=
  { words := wdC,
    paradigms := [[0, 1, 0, 1, 0, 0]],
    suffixes := [gs "a", gs "b"],
    gramtab := [gs "NOUN,inan,masc sing,nomn", gs "NOUN,inan,masc sing,gent"] }

/-- Suffix table for the C3 counterexample (overlapping affixes). -/
def aC3 : Analyzer :=
  { words := wdC,
    paradigms := [],
    suffixes := [gs "о"],
    gramtab := [] }

/-- Malformed-paradigm analyzer: word "b" maps to (0, 1) but paradigm 0
has a single form (N = 1), so formIdx 1 ≥ N. -/
def aC4 : Analyzer :=
  { words := wdC,
    paradigms := [[0, 0, 1]],
    suffixes := [gs "b"],
    gramtab := [gs "X", gs "Y"] }

/-- Like `aC4` but with a one-entry gramtab, so the tag id read from the
prefix region is out of range. -/
def aC5 : Analyzer :=
  { words := wdC,
    paradigms := [[0, 0, 1]],
    suffixes := [gs "b"],
    gramtab := [gs "X"] }

/-- Malformed DAWG: the root unit's offset points past the unit array,
so the very first transition reads out of bounds. -/
def aBad : Analyzer :=
  { words := ⟨⟨[0x18C00]⟩, ⟨[]⟩⟩,
    paradigms := [],
    suffixes := [],
    gramtab := [] }

/-- Like `aConc` but with a suffix table making stem extraction fail for
"b" (suffix "z" does not match). -/
def aC8 : Analyzer :=
  { words := wdC,
    paradigms := [[0, 1, 0, 1, 0, 0]],
    suffixes := [gs "a", gs "z"],
    gramtab := [gs "NOUN,inan,masc sing,nomn", gs "NOUN,inan,masc sing,gent"] }


/-! ## Concrete evaluation lemmas

Kernel evaluation of the completer enumeration in one stroke duplicates
unevaluated state terms, so the single `get` run on the concrete
dictionary is evaluated step by step; every later concrete fact rewrites
with `getB` first and decides the literal remainder. -/

def stT : completer := ⟨[65, 65, 65, 65, 65, 81, 61, 61], [10, 9, 8, 7, 6, 5, 4, 3, 2], 10⟩

lemma cNextA : cNext wdC.dict wdC.guide 100 ⟨[], [2], 0⟩ = some (stT, true) := by decide

lemma getLoopB : getLoop wdC 100 ⟨[], [2], 0⟩ [] = some [⟨0, 1⟩] := by
  rw [show (100 : Nat) = 99 + 1 from rfl, getLoop,
      show (99 : Nat) + 1 = 100 from rfl, cNextA]
  decide

lemma getB : wordsDawg.get wdC 100 (gs "b") = some [⟨0, 1⟩] := by
  have h1 : wdC.dict.followBytes (strBytes (gs "b")) 0 = some (some 1) := by decide
  have h2 : wdC.dict.followChar dawgPayloadSep 1 = some (some 2) := by decide
  simp only [wordsDawg.get, h1, h2, getLoopB]

lemma normB : toLowerGo (trimSpaceGo (gs "b")) = gs "b" := by decide

lemma evalWordFormsConc : aConc.WordForms 100 (gs "b") = some [gs "a", gs "b"] := by
  have hg : wordsDawg.get aConc.words 100 (gs "b") = some [⟨0, 1⟩] := getB
  unfold Analyzer.WordForms
  rw [normB, hg]
  decide

lemma evalTagConc : aConc.Tag 100 (gs "b") = some (gs "NOUN,inan,masc sing,gent") := by
  have hg : wordsDawg.get aConc.words 100 (gs "b") = some [⟨0, 1⟩] := getB
  unfold Analyzer.Tag
  rw [normB, hg]
  decide

lemma evalTagC4 : aC4.Tag 100 (gs "b") = some (gs "Y") := by
  have hg : wordsDawg.get aC4.words 100 (gs "b") = some [⟨0, 1⟩] := getB
  unfold Analyzer.Tag
  rw [normB, hg]
  decide

lemma evalTagC5 : aC5.Tag 100 (gs "b") = some [] := by
  have hg : wordsDawg.get aC5.words 100 (gs "b") = some [⟨0, 1⟩] := getB
  unfold Analyzer.Tag
  rw [normB, hg]
  decide

lemma evalWordFormsC4 : aC4.WordForms 100 (gs "b") = some [] := by
  have hg : wordsDawg.get aC4.words 100 (gs "b") = some [⟨0, 1⟩] := getB
  unfold Analyzer.WordForms
  rw [normB, hg]
  decide

lemma evalWordFormsBad : aBad.WordForms 100 (gs "b") = none := by decide

lemma evalInflect_nomn_sing :
    aConc.inflect 100 (gs "b") (gs "nomn") (gs "sing") [] [] = some (gs "a") := by
  have hg : wordsDawg.get aConc.words 100 (gs "b") = some [⟨0, 1⟩] := getB
  unfold Analyzer.inflect
  rw [hg]
  decide

lemma evalInflect_gent_sing :
    aConc.inflect 100 (gs "b") (gs "gent") (gs "sing") [] [] = some (gs "b") := by
  have hg : wordsDawg.get aConc.words 100 (gs "b") = some [⟨0, 1⟩] := getB
  unfold Analyzer.inflect
  rw [hg]
  decide

lemma evalInflect_datv_sing :
    aConc.inflect 100 (gs "b") (gs "datv") (gs "sing") [] [] = some (gs "b") := by
  have hg : wordsDawg.get aConc.words 100 (gs "b") = some [⟨0, 1⟩] := getB
  unfold Analyzer.inflect
  rw [hg]
  decide

lemma evalInflect_accs_sing :
    aConc.inflect 100 (gs "b") (gs "accs") (gs "sing") [] [] = some (gs "b") := by
  have hg : wordsDawg.get aConc.words 100 (gs "b") = some [⟨0, 1⟩] := getB
  unfold Analyzer.inflect
  rw [hg]
  decide

lemma evalInflect_ablt_sing :
    aConc.inflect 100 (gs "b") (gs "ablt") (gs "sing") [] [] = some (gs "b") := by
  have hg : wordsDawg.get aConc.words 100 (gs "b") = some [⟨0, 1⟩] := getB
  unfold Analyzer.inflect
  rw [hg]
  decide

lemma evalInflect_loct_sing :
    aConc.inflect 100 (gs "b") (gs "loct") (gs "sing") [] [] = some (gs "b") := by
  have hg : wordsDawg.get aConc.words 100 (gs "b") = some [⟨0, 1⟩] := getB
  unfold Analyzer.inflect
  rw [hg]
  decide

lemma evalInflect_nomn_plur :
    aConc.inflect 100 (gs "b") (gs "nomn") (gs "plur") [] [] = some (gs "b") := by
  have hg : wordsDawg.get aConc.words 100 (gs "b") = some [⟨0, 1⟩] := getB
  unfold Analyzer.inflect
  rw [hg]
  decide

lemma evalInflect_gent_plur :
    aConc.inflect 100 (gs "b") (gs "gent") (gs "plur") [] [] = some (gs "b") := by
  have hg : wordsDawg.get aConc.words 100 (gs "b") = some [⟨0, 1⟩] := getB
  unfold Analyzer.inflect
  rw [hg]
  decide

lemma evalInflect_datv_plur :
    aConc.inflect 100 (gs "b") (gs "datv") (gs "plur") [] [] = some (gs "b") := by
  have hg : wordsDawg.get aConc.words 100 (gs "b") = some [⟨0, 1⟩] := getB
  unfold Analyzer.inflect
  rw [hg]
  decide

lemma evalInflect_accs_plur :
    aConc.inflect 100 (gs "b") (gs "accs") (gs "plur") [] [] = some (gs "b") := by
  have hg : wordsDawg.get aConc.words 100 (gs "b") = some [⟨0, 1⟩] := getB
  unfold Analyzer.inflect
  rw [hg]
  decide

lemma evalInflect_ablt_plur :
    aConc.inflect 100 (gs "b") (gs "ablt") (gs "plur") [] [] = some (gs "b") := by
  have hg : wordsDawg.get aConc.words 100 (gs "b") = some [⟨0, 1⟩] := getB
  unfold Analyzer.inflect
  rw [hg]
  decide

lemma evalInflect_loct_plur :
    aConc.inflect 100 (gs "b") (gs "loct") (gs "plur") [] [] = some (gs "b") := by
  have hg : wordsDawg.get aConc.words 100 (gs "b") = some [⟨0, 1⟩] := getB
  unfold Analyzer.inflect
  rw [hg]
  decide

/-- The word info computed for the known token "b". -/
def infoB : wordInfo := ⟨gs "NOUN", gs "inan", gs "masc"⟩

lemma evalInfosB1 : computeInfos aConc 100 [gs "b"] = some [infoB] := by
  unfold computeInfos
  rw [evalTagConc]
  decide

lemma evalInfosBB : computeInfos aConc 100 [gs "b", gs "b"] = some [infoB, infoB] := by
  unfold computeInfos
  rw [evalTagConc, evalInfosB1]
  decide
lemma evalDeclineAll_nomn_sing :
    declineAll aConc 100 infoB (gs "nomn") (gs "sing")
      [(gs "b", infoB), (gs "b", infoB)] = some [gs "a", gs "a"] := by
  unfold declineAll
  unfold declineAll
  unfold declineAll
  unfold declineWord
  rw [evalInflect_nomn_sing]
  decide

lemma evalDeclineAll_gent_sing :
    declineAll aConc 100 infoB (gs "gent") (gs "sing")
      [(gs "b", infoB), (gs "b", infoB)] = some [gs "b", gs "b"] := by
  unfold declineAll
  unfold declineAll
  unfold declineAll
  unfold declineWord
  rw [evalInflect_gent_sing]
  decide

lemma evalDeclineAll_datv_sing :
    declineAll aConc 100 infoB (gs "datv") (gs "sing")
      [(gs "b", infoB), (gs "b", infoB)] = some [gs "b", gs "b"] := by
  unfold declineAll
  unfold declineAll
  unfold declineAll
  unfold declineWord
  rw [evalInflect_datv_sing]
  decide

lemma evalDeclineAll_accs_sing :
    declineAll aConc 100 infoB (gs "accs") (gs "sing")
      [(gs "b", infoB), (gs "b", infoB)] = some [gs "b", gs "b"] := by
  unfold declineAll
  unfold declineAll
  unfold declineAll
  unfold declineWord
  rw [evalInflect_accs_sing]
  decide

lemma evalDeclineAll_ablt_sing :
    declineAll aConc 100 infoB (gs "ablt") (gs "sing")
      [(gs "b", infoB), (gs "b", infoB)] = some [gs "b", gs "b"] := by
  unfold declineAll
  unfold declineAll
  unfold declineAll
  unfold declineWord
  rw [evalInflect_ablt_sing]
  decide

lemma evalDeclineAll_loct_sing :
    declineAll aConc 100 infoB (gs "loct") (gs "sing")
      [(gs "b", infoB), (gs "b", infoB)] = some [gs "b", gs "b"] := by
  unfold declineAll
  unfold declineAll
  unfold declineAll
  unfold declineWord
  rw [evalInflect_loct_sing]
  decide

lemma evalDeclineAll_nomn_plur :
    declineAll aConc 100 infoB (gs "nomn") (gs "plur")
      [(gs "b", infoB), (gs "b", infoB)] = some [gs "b", gs "b"] := by
  unfold declineAll
  unfold declineAll
  unfold declineAll
  unfold declineWord
  rw [evalInflect_nomn_plur]
  decide

lemma evalDeclineAll_gent_plur :
    declineAll aConc 100 infoB (gs "gent") (gs "plur")
      [(gs "b", infoB), (gs "b", infoB)] = some [gs "b", gs "b"] := by
  unfold declineAll
  unfold declineAll
  unfold declineAll
  unfold declineWord
  rw [evalInflect_gent_plur]
  decide

lemma evalDeclineAll_datv_plur :
    declineAll aConc 100 infoB (gs "datv") (gs "plur")
      [(gs "b", infoB), (gs "b", infoB)] = some [gs "b", gs "b"] := by
  unfold declineAll
  unfold declineAll
  unfold declineAll
  unfold declineWord
  rw [evalInflect_datv_plur]
  decide

lemma evalDeclineAll_accs_plur :
    declineAll aConc 100 infoB (gs "accs") (gs "plur")
      [(gs "b", infoB), (gs "b", infoB)] = some [gs "b", gs "b"] := by
  unfold declineAll
  unfold declineAll
  unfold declineAll
  unfold declineWord
  rw [evalInflect_accs_plur]
  decide

lemma evalDeclineAll_ablt_plur :
    declineAll aConc 100 infoB (gs "ablt") (gs "plur")
      [(gs "b", infoB), (gs "b", infoB)] = some [gs "b", gs "b"] := by
  unfold declineAll
  unfold declineAll
  unfold declineAll
  unfold declineWord
  rw [evalInflect_ablt_plur]
  decide

lemma evalDeclineAll_loct_plur :
    declineAll aConc 100 infoB (gs "loct") (gs "plur")
      [(gs "b", infoB), (gs "b", infoB)] = some [gs "b", gs "b"] := by
  unfold declineAll
  unfold declineAll
  unfold declineAll
  unfold declineWord
  rw [evalInflect_loct_plur]
  decide

lemma evalCaseLoopSing :
    pfcCaseLoop aConc 100 [(gs "b", infoB), (gs "b", infoB)] infoB (gs "sing")
      casesList [gs "b b"] = some [gs "b b", gs "a a"] := by
  rw [(by decide : casesList = [gs "nomn", gs "gent", gs "datv", gs "accs", gs "ablt", gs "loct"])]
  unfold pfcCaseLoop
  unfold pfcCaseLoop
  unfold pfcCaseLoop
  unfold pfcCaseLoop
  unfold pfcCaseLoop
  unfold pfcCaseLoop
  unfold pfcCaseLoop
  rw [evalDeclineAll_nomn_sing, evalDeclineAll_gent_sing, evalDeclineAll_datv_sing, evalDeclineAll_accs_sing, evalDeclineAll_ablt_sing, evalDeclineAll_loct_sing]
  decide

lemma evalCaseLoopPlur :
    pfcCaseLoop aConc 100 [(gs "b", infoB), (gs "b", infoB)] infoB (gs "plur")
      casesList [gs "b b", gs "a a"] = some [gs "b b", gs "a a"] := by
  rw [(by decide : casesList = [gs "nomn", gs "gent", gs "datv", gs "accs", gs "ablt", gs "loct"])]
  unfold pfcCaseLoop
  unfold pfcCaseLoop
  unfold pfcCaseLoop
  unfold pfcCaseLoop
  unfold pfcCaseLoop
  unfold pfcCaseLoop
  unfold pfcCaseLoop
  rw [evalDeclineAll_nomn_plur, evalDeclineAll_gent_plur, evalDeclineAll_datv_plur, evalDeclineAll_accs_plur, evalDeclineAll_ablt_plur, evalDeclineAll_loct_plur]
  decide

lemma evalPFCbb :
    aConc.PhraseFormsConcordant 100 (gs "b b") = some [gs "b b", gs "a a"] := by
  unfold Analyzer.PhraseFormsConcordant
  rw [(by decide : toLowerGo (trimSpaceGo (gs "b b")) = gs "b b"),
      (by decide : fieldsGo (gs "b b") = [gs "b", gs "b"])]
  dsimp only []
  rw [evalInfosBB]
  dsimp only []
  rw [(by decide : headIdxOf [infoB, infoB] = some 1)]
  dsimp only []
  rw [(by decide : ([gs "b", gs "b"].zip [infoB, infoB] : List (GoStr × wordInfo)) =
        [(gs "b", infoB), (gs "b", infoB)]),
      (by decide : ([infoB, infoB].getD 1 emptyInfo) = infoB),
      (by decide : numbersList = [gs "sing", gs "plur"])]
  unfold pfcProductLoop
  rw [evalCaseLoopSing]
  dsimp only []
  unfold pfcProductLoop
  rw [evalCaseLoopPlur]
  decide

lemma evalPFCsingleB :
    aConc.PhraseFormsConcordant 100 (gs "b") = some [gs "a", gs "b"] := by
  unfold Analyzer.PhraseFormsConcordant
  rw [normB, (by decide : fieldsGo (gs "b") = [gs "b"])]
  dsimp only []
  rw [evalWordFormsConc]

lemma evalPFCcc :
    aConc.PhraseFormsConcordant 100 (gs "c c") = some [gs "c c"] := by decide

lemma evalInflectUnknown :
    aConc.inflect 100 (gs "c") (gs "nomn") (gs "sing") [] [] = some (gs "c") := by decide

lemma evalInflectC8 :
    aC8.inflect 100 (gs "b") (gs "gent") (gs "sing") [] [] = some (gs "b") := by
  have hg : wordsDawg.get aC8.words 100 (gs "b") = some [⟨0, 1⟩] := getB
  unfold Analyzer.inflect
  rw [hg]
  decide

/-! ## Claim theorems -/

/-- The extension-bit shift amount in `unitOffset`: Go computes
`(u & 0x200) >> 6`, which is `8 * ((u >> 9) & 1)` — eight bits, not one. -/
lemma extShiftAmount (u : Nat) : (u &&& 512) >>> 6 = 8 * ((u >>> 9) &&& 1) := by
  have h : u &&& 512 = (u.testBit 9).toNat * 512 := by
    have h2 := Nat.and_two_pow u 9
    norm_num at h2
    exact h2
  rw [Nat.shiftRight_eq_div_pow, h, Nat.toNat_testBit,
      Nat.and_one_is_mod, Nat.shiftRight_eq_div_pow]
  rcases Nat.mod_two_eq_zero_or_one (u / 2 ^ 9) with h3 | h3 <;> rw [h3]

/-- C1, counterexample: at unit `u = 0x600` (extension bit set, offset
payload 1) the code decodes offset 256, while the claimed formula
`((u >> 10) << ((u >> 9) & 1)) & 0xFFFFFFFF` gives 2. -/
theorem c1_counterexample :
    unitOffset 0x600 = 256 ∧
    ((0x600 >>> 10) <<< ((0x600 >>> 9) &&& 1)) &&& 0xFFFFFFFF = 2 ∧
    (256 : Nat) ≠ 2 := by decide

/-- C1, amended: for every 32-bit DAWG unit `u` the decoded offset is
`((u >> 10) << (8 * ((u >> 9) & 1))) & 0xFFFFFFFF` — the 21-bit payload
is shifted by 0 or 8 bits (not 0 or 1) depending on the extension bit —
and this offset is the one used by every transition (`followChar`) and
every value read (`value`). -/
theorem c1_amended :
    (∀ u : Nat, unitOffset u = ((u >>> 10) <<< (8 * ((u >>> 9) &&& 1))) &&& 0xFFFFFFFF) ∧
    (∀ (d : dictionary) (label index u : Nat), d.units[index]? = some u →
      d.followChar label index =
        match d.units[(index ^^^ ((((u >>> 10) <<< (8 * ((u >>> 9) &&& 1))) &&& 0xFFFFFFFF))
            ^^^ label) &&& precisionMask]? with
        | none => none
        | some u2 =>
          if unitLabel u2 = label then
            some (some ((index ^^^ ((((u >>> 10) <<< (8 * ((u >>> 9) &&& 1))) &&& 0xFFFFFFFF))
              ^^^ label) &&& precisionMask))
          else some none) ∧
    (∀ (d : dictionary) (index u : Nat), d.units[index]? = some u →
      d.value index =
        (d.units[(index ^^^ ((((u >>> 10) <<< (8 * ((u >>> 9) &&& 1))) &&& 0xFFFFFFFF)))
            &&& precisionMask]?).map unitValue) := by
  have hoff : ∀ u : Nat,
      unitOffset u = ((u >>> 10) <<< (8 * ((u >>> 9) &&& 1))) &&& 0xFFFFFFFF := by
    intro u
    unfold unitOffset extensionBit precisionMask
    rw [extShiftAmount]
  refine ⟨hoff, ?_, ?_⟩
  · intro d label index u h
    unfold dictionary.followChar
    rw [h, ← hoff u]
  · intro d index u h
    unfold dictionary.value
    rw [h, ← hoff u]

/-- C1, witness for the amended theorem, at `u = 0x600` and the concrete
dictionary: the transition from the root follows the code offset. -/
theorem c1_witness :
    unitOffset 0x600 = ((0x600 >>> 10) <<< (8 * ((0x600 >>> 9) &&& 1))) &&& 0xFFFFFFFF ∧
    dictionary.followChar ⟨concreteUnits⟩ 0x62 0 =
      match (⟨concreteUnits⟩ : dictionary).units[(0 ^^^ ((((0x18C00 >>> 10) <<<
          (8 * ((0x18C00 >>> 9) &&& 1))) &&& 0xFFFFFFFF)) ^^^ 0x62) &&& precisionMask]? with
      | none => none
      | some u2 =>
        if unitLabel u2 = 0x62 then
          some (some ((0 ^^^ ((((0x18C00 >>> 10) <<< (8 * ((0x18C00 >>> 9) &&& 1))) &&&
            0xFFFFFFFF)) ^^^ 0x62) &&& precisionMask))
        else some none :=
  ⟨c1_amended.1 0x600,
   c1_amended.2.1 ⟨concreteUnits⟩ 0x62 0 0x18C00 (by decide)⟩

/-- C3, counterexample: word "по" passes the prefix check for the fixed
paradigm prefix "по" and the suffix check for suffix "о", yet
`len(prefix) + len(suffix) > len(word)`, and the stem slice has inverted
bounds (a Go slice-bounds panic, modelled as `none`). -/
theorem c3_counterexample :
    (gs "по").isPrefixOf (gs "по") = true ∧
    (gs "о").isSuffixOf (gs "по") = true ∧
    (gs "по").length + (gs "о").length > (gs "по").length ∧
    aC3.extractStem (gs "по") [0, 0, 1] 1 0 = none := by decide

/-- C3, amended: the two substring checks alone do not bound
`len(prefix) + len(suffix)` by `len(word)` (the affixes may overlap, see
the counterexample); under the additional hypothesis
`len(prefix) + len(suffix) ≤ len(word)` the stem slice is in bounds,
extraction succeeds, and the guard `len(stem) < 0` (trivially false on
an unsigned length) is never the branch taken. -/
theorem c3_amended (a : Analyzer) (word : GoStr) (para : List Nat) (n fi sid pid : Nat)
    (suffix pre : GoStr)
    (h1 : para[fi]? = some sid) (h2 : a.suffixes[sid]? = some suffix)
    (h3 : para[2 * n + fi]? = some pid) (h4 : paradigmPrefixes[pid]? = some pre)
    (hp : pre.isPrefixOf word) (hs : suffix.isSuffixOf word)
    (hlen : pre.length + suffix.length ≤ word.length) :
    a.extractStem word para n fi =
      some (some ((word.take (word.length - suffix.length)).drop pre.length)) := by
  have hsl : suffix.length ≤ word.length :=
    (List.isSuffixOf_iff_suffix.mp hs).length_le
  unfold Analyzer.extractStem
  simp only [h1, h2, h3, h4]
  rw [if_pos ⟨hp, hs⟩, if_pos (by omega : pre.length ≤ word.length - suffix.length)]
  simp

/-- C3, witness: at the concrete analyzer, word "b", paradigm form 1
(prefix "", suffix "b"), extraction succeeds with the empty stem. -/
theorem c3_witness :
    aConc.extractStem (gs "b") [0, 1, 0, 1, 0, 0] 2 1 =
      some (some (((gs "b").take ((gs "b").length - (gs "b").length)).drop (gs "").length)) :=
  c3_amended aConc (gs "b") [0, 1, 0, 1, 0, 0] 2 1 1 0 (gs "b") (gs "")
    (by decide) (by decide) (by decide) (by decide) (by decide) (by decide) (by decide)

/-- C7: `inflectAdj` resolves the accusative exactly as specified —
plural: nominative for an inanimate head else genitive; singular
masculine: the same; singular neuter: nominative; singular feminine:
accusative kept — and calls `inflect` with the gender cleared for
plural and an always-empty animacy. -/
theorem c7_confirmed (a : Analyzer) (fuel : Nat) (word cas number gender animacy : GoStr) :
    a.inflectAdj fuel word cas number gender animacy =
      a.inflect fuel word (effCaseSpec cas number gender animacy) number
        (if number = gs "plur" then [] else gender) [] := by
  have he : (if cas = gs "accs" then
      if number = gs "plur" then
        if animacy = gs "inan" then gs "nomn" else gs "gent"
      else if number = gs "sing" ∧ gender = gs "masc" then
        if animacy = gs "inan" then gs "nomn" else gs "gent"
      else if number = gs "sing" ∧ gender = gs "neut" then gs "nomn"
      else cas
    else cas) = effCaseSpec cas number gender animacy := by
    unfold effCaseSpec
    by_cases h1 : cas = gs "accs" <;> by_cases h2 : number = gs "plur" <;>
      by_cases h3 : number = gs "sing" <;> by_cases h4 : gender = gs "masc" <;>
      by_cases h5 : gender = gs "neut" <;>
      first
        | (exact absurd (h2 ▸ h3) (by decide))
        | (exact absurd (h4 ▸ h5) (by decide))
        | simp [h1, h2, h3, h4, h5]
  unfold Analyzer.inflectAdj
  rw [he]

/-- C4, counterexample: in `aC4` the word "b" maps to form index 1 of a
one-form paradigm (`fi = 1 ≥ N = 1`), yet `Tag` does not return the
empty string: it reads `para[N + fi] = para[2]`, which lies in the
prefix-index region, and returns `gramtab[1] = "Y"`. -/
theorem c4_counterexample :
    aC4.words.get 100 (gs "b") = some [⟨0, 1⟩] ∧
    aC4.paradigms = [[0, 0, 1]] ∧
    (1 : Nat) ≥ ([0, 0, 1] : List Nat).length / 3 ∧
    aC4.Tag 100 (gs "b") = some (gs "Y") ∧
    gs "Y" ≠ ([] : GoStr) :=
  ⟨getB, by decide, by decide, evalTagC4, by decide⟩

/-- C4, amended: `Tag` performs no `fi ≥ N` check.  Whenever the read of
`para[N + fi]` succeeds (which for `fi ≥ N` lies outside the tag-index
region, and for `N + fi ≥ len(para)` is an out-of-bounds panic), the
result is `gramtab[tid]` when `tid` is in range and the empty string
only when `tid` is out of range. -/
theorem c4_amended (a : Analyzer) (fuel : Nat) (word : GoStr) (e : wordEntry)
    (rest : List wordEntry) (para : List Nat) (tid : Nat)
    (h1 : a.words.get fuel (toLowerGo (trimSpaceGo word)) = some (e :: rest))
    (h2 : a.paradigms[e.paradigmID]? = some para)
    (h3 : para[para.length / 3 + e.formIdx]? = some tid) :
    a.Tag fuel word = some (if tid < a.gramtab.length then a.gramtab.getD tid [] else []) := by
  unfold Analyzer.Tag
  simp only [h1, h2, h3]
  by_cases h : tid ≥ a.gramtab.length
  · rw [if_pos h, if_neg (by omega)]
  · rw [if_neg h, if_pos (by omega)]

/-- C4, witness: at `aC4`, `Tag` returns `gramtab[para[2]] = gramtab[1]`. -/
theorem c4_witness :
    aC4.Tag 100 (gs "b") =
      some (if 1 < aC4.gramtab.length then aC4.gramtab.getD 1 [] else []) :=
  c4_amended aC4 100 (gs "b") ⟨0, 1⟩ [] [0, 0, 1] 1
    (by rw [normB]; exact getB) (by decide) (by decide)

/-- C5, counterexample: a DAWG transition pointing past the unit array is
an out-of-bounds read (a Go panic, modelled as `none`), reachable from
the public `WordForms` on loadable data, not a skip or an empty result. -/
theorem c5_counterexample :
    dictionary.followChar ⟨[0x18C00]⟩ 0x62 0 = none ∧
    aBad.WordForms 100 (gs "b") = none :=
  ⟨by decide, evalWordFormsBad⟩

/-- C5, amended: the checks that do exist — `WordForms` returns empty
when `fi ≥ N`, and `Tag` returns empty when the tag id is out of range
— but an out-of-range paradigm id, suffix id, or a DAWG transition past
the unit array is an out-of-bounds access (see the counterexample), not
a skip. -/
theorem c5_amended :
    (∀ (a : Analyzer) (fuel : Nat) (word : GoStr) (e : wordEntry) (rest : List wordEntry)
        (para : List Nat),
      a.words.get fuel (toLowerGo (trimSpaceGo word)) = some (e :: rest) →
      a.paradigms[e.paradigmID]? = some para →
      para.length / 3 ≤ e.formIdx →
      a.WordForms fuel word = some []) ∧
    (∀ (a : Analyzer) (fuel : Nat) (word : GoStr) (e : wordEntry) (rest : List wordEntry)
        (para : List Nat) (tid : Nat),
      a.words.get fuel (toLowerGo (trimSpaceGo word)) = some (e :: rest) →
      a.paradigms[e.paradigmID]? = some para →
      para[para.length / 3 + e.formIdx]? = some tid →
      a.gramtab.length ≤ tid →
      a.Tag fuel word = some []) := by
  constructor
  · intro a fuel word e rest para h1 h2 h3
    unfold Analyzer.WordForms
    by_cases hw : toLowerGo (trimSpaceGo word) = []
    · rw [if_pos hw]
    · rw [if_neg hw]
      simp only [h1, h2]
      rw [if_pos (by omega : e.formIdx ≥ para.length / 3)]
  · intro a fuel word e rest para tid h1 h2 h3 h4
    unfold Analyzer.Tag
    simp only [h1, h2, h3]
    rw [if_pos (by omega : tid ≥ a.gramtab.length)]

/-- C5, witness: `WordForms` on the malformed `fi ≥ N` entry and `Tag`
on the out-of-range tag id both return the empty result. -/
theorem c5_witness :
    aC4.WordForms 100 (gs "b") = some [] ∧ aC5.Tag 100 (gs "b") = some [] :=
  ⟨c5_amended.1 aC4 100 (gs "b") ⟨0, 1⟩ [] [0, 0, 1]
      (by rw [normB]; exact getB) (by decide) (by decide),
   c5_amended.2 aC5 100 (gs "b") ⟨0, 1⟩ [] [0, 0, 1] 1
      (by rw [normB]; exact getB) (by decide) (by decide) (by decide)⟩

/-- In-range list lookup as an equation on `getD`. -/
lemma getq_eq_getD {α : Type} (l : List α) (i : Nat) (d : α) (h : i < l.length) :
    l[i]? = some (l.getD i d) := by
  rw [List.getD_eq_getElem?_getD, List.getElem?_eq_getElem h]
  rfl

/-- Inversion of a successful `extractStem`: the four table lookups
succeed, both affix checks pass, the slice is in bounds, and the stem is
the middle slice. -/
lemma extractStem_inv (a : Analyzer) (w : GoStr) (para : List Nat) (n fi : Nat)
    (stem : GoStr) (h : a.extractStem w para n fi = some (some stem)) :
    ∃ sid suffix pid pre,
      para[fi]? = some sid ∧ a.suffixes[sid]? = some suffix ∧
      para[2 * n + fi]? = some pid ∧ paradigmPrefixes[pid]? = some pre ∧
      pre.isPrefixOf w = true ∧ suffix.isSuffixOf w = true ∧
      pre.length ≤ w.length - suffix.length ∧
      stem = (w.take (w.length - suffix.length)).drop pre.length := by
  unfold Analyzer.extractStem at h
  split at h
  · exact absurd h (by simp)
  rename_i sid h1
  split at h
  · exact absurd h (by simp)
  rename_i suffix h2
  split at h
  · exact absurd h (by simp)
  rename_i pid h3
  split at h
  · exact absurd h (by simp)
  rename_i pre h4
  split at h
  · rename_i hcond
    split at h
    · rename_i hle
      simp only [Nat.not_lt_zero, if_false, Option.some.injEq] at h
      exact ⟨sid, suffix, pid, pre, h1, h2, h3, h4, hcond.1, hcond.2, hle, h.symm⟩
    · exact absurd h (by simp)
  · exact absurd (Option.some.inj h) (by simp)

/-- Stem-extraction round trip: gluing the prefix, the middle slice and
the suffix back together restores the word. -/
lemma affix_concat (w pre suffix : GoStr)
    (hp : pre.isPrefixOf w = true) (hs : suffix.isSuffixOf w = true)
    (hle : pre.length ≤ w.length - suffix.length) :
    pre ++ (w.take (w.length - suffix.length)).drop pre.length ++ suffix = w := by
  obtain ⟨r, hr⟩ := List.isSuffixOf_iff_suffix.mp hs
  have hsl : suffix.length ≤ w.length := (List.isSuffixOf_iff_suffix.mp hs).length_le
  have hrl : r.length = w.length - suffix.length := by
    have : (r ++ suffix).length = w.length := by rw [hr]
    simp only [List.length_append] at this
    omega
  have htake : w.take (w.length - suffix.length) = r := by
    rw [← hrl, ← hr, List.take_left]
  have hpr : pre <+: r := by
    refine List.prefix_of_prefix_length_le (List.isPrefixOf_iff_prefix.mp hp) ⟨suffix, hr⟩ ?_
    omega
  obtain ⟨m, hm⟩ := hpr
  have hdrop : r.drop pre.length = m := by
    rw [← hm]
    exact List.drop_left pre m
  rw [htake, hdrop, hm]
  exact hr

/-- `buildFormsAux` only appends: the accumulator survives into the
result. -/
lemma buildFormsAux_subset (a : Analyzer) (para : List Nat) (n : Nat) (stem : GoStr) :
    ∀ (l : List Nat) (acc out : List GoStr),
      buildFormsAux a para n stem l acc = some out → acc ⊆ out := by
  intro l
  induction l with
  | nil =>
    intro acc out h
    unfold buildFormsAux at h
    rw [Option.some.inj h]
    exact fun x hx => hx
  | cons i rest ih =>
    intro acc out h
    unfold buildFormsAux at h
    split at h
    · exact absurd h (by simp)
    rename_i pid _
    split at h
    · exact absurd h (by simp)
    rename_i pre _
    split at h
    · exact absurd h (by simp)
    rename_i sid _
    split at h
    · exact absurd h (by simp)
    rename_i suffix _
    refine List.Subset.trans ?_ (ih _ _ h)
    split
    · exact fun x hx => hx
    · exact List.subset_append_left _ _

/-- Every index in the loop list contributes its materialised form to the
result of `buildFormsAux`. -/
lemma buildFormsAux_mem (a : Analyzer) (para : List Nat) (n : Nat) (stem : GoStr) :
    ∀ (l : List Nat) (acc out : List GoStr) (i pid sid : Nat) (pre suffix : GoStr),
      buildFormsAux a para n stem l acc = some out → i ∈ l →
      para[2 * n + i]? = some pid → paradigmPrefixes[pid]? = some pre →
      para[i]? = some sid → a.suffixes[sid]? = some suffix →
      (pre ++ stem ++ suffix) ∈ out := by
  intro l
  induction l with
  | nil =>
    intro _ _ _ _ _ _ _ _ hmem
    exact absurd hmem (List.not_mem_nil _)
  | cons j rest ih =>
    intro acc out i pid sid pre suffix h hmem h1 h2 h3 h4
    unfold buildFormsAux at h
    split at h
    · exact absurd h (by simp)
    rename_i pidj hj1
    split at h
    · exact absurd h (by simp)
    rename_i prej hj2
    split at h
    · exact absurd h (by simp)
    rename_i sidj hj3
    split at h
    · exact absurd h (by simp)
    rename_i suffixj hj4
    rcases List.mem_cons.mp hmem with heq | hmem2
    · subst heq
      have hpid : pidj = pid := Option.some.inj (hj1.symm.trans h1)
      subst hpid
      have hpre : prej = pre := Option.some.inj (hj2.symm.trans h2)
      subst hpre
      have hsid : sidj = sid := Option.some.inj (hj3.symm.trans h3)
      subst hsid
      have hsuffix : suffixj = suffix := Option.some.inj (hj4.symm.trans h4)
      subst hsuffix
      refine (buildFormsAux_subset a para n stem rest _ out h) ?_
      split
      · assumption
      · exact List.mem_append_right _ (List.mem_singleton_self _)
    · exact ih _ _ _ _ _ _ _ h hmem2 h1 h2 h3 h4

/-- C6: whenever `WordForms` returns a non-empty list, the materialised
form at the entry's own form index rebuilds the normalized input word
(the stem-extraction round trip), so the result contains the normalized
word itself. -/
theorem c6_confirmed (a : Analyzer) (fuel : Nat) (word : GoStr) (forms : List GoStr)
    (h : a.WordForms fuel word = some forms) (hne : forms ≠ []) :
    toLowerGo (trimSpaceGo word) ∈ forms := by
  unfold Analyzer.WordForms at h
  split at h
  · exact absurd (Option.some.inj h).symm hne
  split at h
  · exact absurd h (by simp)
  · exact absurd (Option.some.inj h).symm hne
  rename_i e rest hget
  split at h
  · exact absurd h (by simp)
  rename_i para hpara
  simp only [] at h
  split at h
  · exact absurd (Option.some.inj h).symm hne
  rename_i hfi
  split at h
  · exact absurd h (by simp)
  · exact absurd (Option.some.inj h).symm hne
  rename_i stem hstem
  obtain ⟨sid, suffix, pid, pre, h1, h2, h3, h4, hp, hs, hle, hstemeq⟩ :=
    extractStem_inv a _ para _ _ stem hstem
  have hmem : (pre ++ stem ++ suffix) ∈ forms :=
    buildFormsAux_mem a para _ stem _ [] forms e.formIdx pid sid pre suffix h
      (List.mem_range.mpr (by omega)) h3 h4 h1 h2
  have heq : pre ++ stem ++ suffix = toLowerGo (trimSpaceGo word) := by
    rw [hstemeq]
    exact affix_concat _ _ _ hp hs hle
  rwa [heq] at hmem

/-- C6, witness: at the concrete analyzer, `WordForms "b"` contains "b". -/
theorem c6_witness : toLowerGo (trimSpaceGo (gs "b")) ∈ [gs "a", gs "b"] :=
  c6_confirmed aConc 100 (gs "b") [gs "a", gs "b"] evalWordFormsConc (by decide)

/-- The `inflect` scan agrees with the spec-side first-match scan when
all table ids referenced by the paradigm are in range. -/
lemma inflectScan_eq_spec (a : Analyzer) (para : List Nat) (n : Nat)
    (stem word cas number gender animacy : GoStr)
    (hn : 3 * n ≤ para.length)
    (hg : ∀ i, i < n → para.getD (n + i) 0 < a.gramtab.length)
    (hsuf : ∀ i, i < n → para.getD i 0 < a.suffixes.length)
    (hpre : ∀ i, i < n → para.getD (2 * n + i) 0 < 3) :
    ∀ l : List Nat, (∀ i ∈ l, i < n) →
      inflectScan a para n stem word cas number gender animacy l =
        some (inflectSpecAux a para n stem word cas number gender animacy l) := by
  intro l
  induction l with
  | nil => intro _; rfl
  | cons i rest ih =>
    intro hl
    have hi : i < n := hl i (List.mem_cons_self i rest)
    have e1 : para[n + i]? = some (para.getD (n + i) 0) :=
      getq_eq_getD para (n + i) 0 (by omega)
    have e2 : a.gramtab[para.getD (n + i) 0]? =
        some (a.gramtab.getD (para.getD (n + i) 0) []) :=
      getq_eq_getD _ _ _ (hg i hi)
    have e3 : para[2 * n + i]? = some (para.getD (2 * n + i) 0) :=
      getq_eq_getD para (2 * n + i) 0 (by omega)
    have e4 : paradigmPrefixes[para.getD (2 * n + i) 0]? =
        some (paradigmPrefixes.getD (para.getD (2 * n + i) 0) []) :=
      getq_eq_getD _ _ _ (by have := hpre i hi; simpa using this)
    have e5 : para[i]? = some (para.getD i 0) :=
      getq_eq_getD para i 0 (by omega)
    have e6 : a.suffixes[para.getD i 0]? =
        some (a.suffixes.getD (para.getD i 0) []) :=
      getq_eq_getD _ _ _ (hsuf i hi)
    unfold inflectScan inflectSpecAux
    simp only [e1, e2, e3, e4, e5, e6]
    by_cases ht : tagMatches (a.gramtab.getD (para.getD (n + i) 0) [])
        cas number gender animacy
    · rw [if_pos ht, if_pos ht]
      rfl
    · rw [if_neg ht, if_neg ht]
      exact ih (fun j hj => hl j (List.mem_cons_of_mem _ hj))

/-- C8: `inflect` scans the paradigm forms in index order and returns
the first form whose tag matches (the spec-side scan `inflectSpec`,
which returns the word unchanged when no form matches); an unknown word
or a failed stem extraction also returns the word unchanged. -/
theorem c8_confirmed :
    (∀ (a : Analyzer) (fuel : Nat) (word cas number gender animacy : GoStr)
        (e : wordEntry) (rest : List wordEntry) (para : List Nat) (stem : GoStr),
      a.words.get fuel word = some (e :: rest) →
      a.paradigms[e.paradigmID]? = some para →
      a.extractStem word para (para.length / 3) e.formIdx = some (some stem) →
      (∀ i, i < para.length / 3 →
        para.getD (para.length / 3 + i) 0 < a.gramtab.length) →
      (∀ i, i < para.length / 3 → para.getD i 0 < a.suffixes.length) →
      (∀ i, i < para.length / 3 → para.getD (2 * (para.length / 3) + i) 0 < 3) →
      a.inflect fuel word cas number gender animacy =
        some (inflectSpec a para (para.length / 3) stem word cas number gender animacy)) ∧
    (∀ (a : Analyzer) (fuel : Nat) (word cas number gender animacy : GoStr),
      a.words.get fuel word = some [] →
      a.inflect fuel word cas number gender animacy = some word) ∧
    (∀ (a : Analyzer) (fuel : Nat) (word cas number gender animacy : GoStr)
        (e : wordEntry) (rest : List wordEntry) (para : List Nat),
      a.words.get fuel word = some (e :: rest) →
      a.paradigms[e.paradigmID]? = some para →
      a.extractStem word para (para.length / 3) e.formIdx = some none →
      a.inflect fuel word cas number gender animacy = some word) := by
  refine ⟨?_, ?_, ?_⟩
  · intro a fuel word cas number gender animacy e rest para stem h1 h2 h3 hg hsuf hpre
    unfold Analyzer.inflect
    simp only [h1, h2, h3]
    rw [inflectSpec]
    exact inflectScan_eq_spec a para (para.length / 3) stem word cas number gender animacy
      (by have := Nat.div_mul_le_self para.length 3; omega) hg hsuf hpre
      (List.range (para.length / 3)) (fun i hi => List.mem_range.mp hi)
  · intro a fuel word cas number gender animacy h1
    unfold Analyzer.inflect
    simp only [h1]
  · intro a fuel word cas number gender animacy e rest para h1 h2 h3
    unfold Analyzer.inflect
    simp only [h1, h2, h3]

/-- C8, witness: the three conjuncts at concrete inputs — the known word
"b" (scan agrees with the spec scan), the unknown word "c" (returned
unchanged), and the analyzer whose suffix table makes stem extraction
fail for "b" (returned unchanged). -/
theorem c8_witness :
    aConc.inflect 100 (gs "b") (gs "gent") (gs "sing") [] [] =
      some (inflectSpec aConc [0, 1, 0, 1, 0, 0] ([0, 1, 0, 1, 0, 0].length / 3) []
        (gs "b") (gs "gent") (gs "sing") [] []) ∧
    aConc.inflect 100 (gs "c") (gs "nomn") (gs "sing") [] [] = some (gs "c") ∧
    aC8.inflect 100 (gs "b") (gs "gent") (gs "sing") [] [] = some (gs "b") :=
  ⟨c8_confirmed.1 aConc 100 (gs "b") (gs "gent") (gs "sing") [] [] ⟨0, 1⟩ []
      [0, 1, 0, 1, 0, 0] [] getB (by decide) (by decide) (by decide) (by decide) (by decide),
   c8_confirmed.2.1 aConc 100 (gs "c") (gs "nomn") (gs "sing") [] [] (by decide),
   c8_confirmed.2.2 aC8 100 (gs "b") (gs "gent") (gs "sing") [] [] ⟨0, 1⟩ []
      [0, 1, 0, 1, 0, 0] getB (by decide) (by decide)⟩

/-- Combining the two filters produced by one dedup step. -/
lemma filter_notmem_append (tail acc : List GoStr) (f : GoStr) :
    (tail.filter (fun x => x ∉ acc)).filter (fun x => x ≠ f) =
      tail.filter (fun x => x ∉ acc ++ [f]) := by
  rw [List.filter_filter]
  apply List.filter_congr
  intro x _
  by_cases hx : x ∈ acc <;> by_cases hxf : x = f <;>
    simp [hx, hxf, List.mem_append]

/-- `dedupFirst` returns a duplicate-free sublist of its input. -/
lemma dedupFirst_mem_nodup :
    ∀ (k : Nat) (l : List GoStr), l.length ≤ k →
      (∀ x ∈ dedupFirst l, x ∈ l) ∧ (dedupFirst l).Nodup := by
  intro k
  induction k with
  | zero =>
    intro l hl
    have hnil : l = [] := List.eq_nil_of_length_eq_zero (Nat.le_zero.mp hl)
    subst hnil
    simp [dedupFirst]
  | succ k ih =>
    intro l hl
    match l with
    | [] => simp [dedupFirst]
    | x :: xs =>
      have hlen : (xs.filter (fun y => y ≠ x)).length ≤ k := by
        have := List.length_filter_le (fun y => decide (y ≠ x)) xs
        simp only [List.length_cons] at hl
        omega
      obtain ⟨ihm, ihn⟩ := ih _ hlen
      simp only [dedupFirst]
      constructor
      · intro y hy
        rcases List.mem_cons.mp hy with rfl | hy2
        · exact List.mem_cons_self _ _
        · exact List.mem_cons_of_mem _ (List.mem_of_mem_filter (ihm y hy2))
      · refine List.nodup_cons.mpr ⟨?_, ihn⟩
        intro hx
        have hprop := List.of_mem_filter (ihm x hx)
        simp at hprop

lemma dedupFirst_ne_nil (l : List GoStr) (h : l ≠ []) : dedupFirst l ≠ [] := by
  match l with
  | [] => exact absurd rfl h
  | x :: xs => simp [dedupFirst]

/-- The seen-set loop of `WordForms` computes exactly first-occurrence
de-duplication of the materialised forms, appended to the accumulator. -/
lemma buildFormsAux_dedup (a : Analyzer) (para : List Nat) (n : Nat) (stem : GoStr)
    (hn : 3 * n ≤ para.length)
    (hsuf : ∀ i, i < n → para.getD i 0 < a.suffixes.length)
    (hpre : ∀ i, i < n → para.getD (2 * n + i) 0 < 3) :
    ∀ (l : List Nat) (acc : List GoStr), (∀ i ∈ l, i < n) →
      buildFormsAux a para n stem l acc =
        some (acc ++ dedupFirst
          (((l.map (specForm a para n stem)).filter (fun x => x ∉ acc)))) := by
  intro l
  induction l with
  | nil =>
    intro acc _
    simp [buildFormsAux, dedupFirst]
  | cons i rest ih =>
    intro acc hl
    have hi : i < n := hl i (List.mem_cons_self i rest)
    have e3 : para[2 * n + i]? = some (para.getD (2 * n + i) 0) :=
      getq_eq_getD para _ 0 (by omega)
    have e4 : paradigmPrefixes[para.getD (2 * n + i) 0]? =
        some (paradigmPrefixes.getD (para.getD (2 * n + i) 0) []) :=
      getq_eq_getD _ _ _ (by have := hpre i hi; simpa using this)
    have e5 : para[i]? = some (para.getD i 0) := getq_eq_getD para i 0 (by omega)
    have e6 : a.suffixes[para.getD i 0]? =
        some (a.suffixes.getD (para.getD i 0) []) :=
      getq_eq_getD _ _ _ (hsuf i hi)
    unfold buildFormsAux
    simp only [e3, e4, e5, e6]
    show buildFormsAux a para n stem rest
        (if specForm a para n stem i ∈ acc then acc
         else acc ++ [specForm a para n stem i]) =
      some (acc ++ dedupFirst
        (((i :: rest).map (specForm a para n stem)).filter (fun x => x ∉ acc)))
    rw [List.map_cons, List.filter_cons]
    by_cases hf : specForm a para n stem i ∈ acc
    · rw [if_pos hf, ih acc (fun j hj => hl j (List.mem_cons_of_mem _ hj))]
      have hdec : (decide (specForm a para n stem i ∉ acc)) = false := by simp [hf]
      rw [hdec]
      simp
    · rw [if_neg hf, ih (acc ++ [specForm a para n stem i])
          (fun j hj => hl j (List.mem_cons_of_mem _ hj))]
      have hdec : (decide (specForm a para n stem i ∉ acc)) = true := by simp [hf]
      rw [hdec]
      simp only [if_true, dedupFirst, filter_notmem_append]
      simp

/-- C9: for a word present in the index (with a well-formed first entry),
`WordForms` returns exactly the first-occurrence de-duplication of the
materialised forms in paradigm order `i = 0..N` — non-empty and with no
string appearing twice. -/
theorem c9_confirmed (a : Analyzer) (fuel : Nat) (word : GoStr) (e : wordEntry)
    (rest : List wordEntry) (para : List Nat) (stem : GoStr)
    (hw : toLowerGo (trimSpaceGo word) ≠ [])
    (h1 : a.words.get fuel (toLowerGo (trimSpaceGo word)) = some (e :: rest))
    (h2 : a.paradigms[e.paradigmID]? = some para)
    (hfi : e.formIdx < para.length / 3)
    (h3 : a.extractStem (toLowerGo (trimSpaceGo word)) para (para.length / 3) e.formIdx =
      some (some stem))
    (hsuf : ∀ i, i < para.length / 3 → para.getD i 0 < a.suffixes.length)
    (hpre : ∀ i, i < para.length / 3 →
      para.getD (2 * (para.length / 3) + i) 0 < 3) :
    a.WordForms fuel word =
      some (dedupFirst (specFormsList a para (para.length / 3) stem)) ∧
    dedupFirst (specFormsList a para (para.length / 3) stem) ≠ [] ∧
    (dedupFirst (specFormsList a para (para.length / 3) stem)).Nodup := by
  have hfilter : ((List.range (para.length / 3)).map
        (specForm a para (para.length / 3) stem)).filter
        (fun x => x ∉ ([] : List GoStr)) =
      specFormsList a para (para.length / 3) stem := by
    simp [specFormsList]
  refine ⟨?_, ?_, ?_⟩
  · unfold Analyzer.WordForms
    rw [if_neg hw]
    simp only [h1, h2]
    rw [if_neg (by omega : ¬ e.formIdx ≥ para.length / 3)]
    simp only [h3]
    rw [buildFormsAux_dedup a para (para.length / 3) stem
        (by have := Nat.div_mul_le_self para.length 3; omega) hsuf hpre
        (List.range (para.length / 3)) [] (fun i hi => List.mem_range.mp hi)]
    rw [hfilter]
    simp
  · apply dedupFirst_ne_nil
    unfold specFormsList
    have : para.length / 3 ≠ 0 := by omega
    simp [List.range_eq_nil, this]
  · exact (dedupFirst_mem_nodup (specFormsList a para (para.length / 3) stem).length
      _ le_rfl).2

/-- C9, witness: at the concrete analyzer the de-duplicated form list of
"b" is produced, non-empty and duplicate-free. -/
theorem c9_witness :
    aConc.WordForms 100 (gs "b") =
      some (dedupFirst (specFormsList aConc [0, 1, 0, 1, 0, 0]
        ([0, 1, 0, 1, 0, 0].length / 3) [])) ∧
    dedupFirst (specFormsList aConc [0, 1, 0, 1, 0, 0]
      ([0, 1, 0, 1, 0, 0].length / 3) []) ≠ [] ∧
    (dedupFirst (specFormsList aConc [0, 1, 0, 1, 0, 0]
      ([0, 1, 0, 1, 0, 0].length / 3) [])).Nodup :=
  c9_confirmed aConc 100 (gs "b") ⟨0, 1⟩ [] [0, 1, 0, 1, 0, 0] []
    (by decide) (by rw [normB]; exact getB) (by decide) (by decide)
    (by rw [normB]; decide) (by decide) (by decide)

/-- `addAll` only appends to its accumulator. -/
lemma addAll_append : ∀ (fs acc : List GoStr), ∃ t, addAll fs acc = acc ++ t := by
  intro fs
  induction fs with
  | nil => intro acc; exact ⟨[], by simp [addAll]⟩
  | cons f fs ih =>
    intro acc
    unfold addAll
    by_cases hf : f ∈ acc
    · rw [if_pos hf]; exact ih acc
    · rw [if_neg hf]
      obtain ⟨t, ht⟩ := ih (acc ++ [f])
      exact ⟨[f] ++ t, by rw [ht, List.append_assoc]⟩

/-- The flatten branch only appends to its accumulator. -/
lemma flattenLoop_append (a : Analyzer) (fuel : Nat) :
    ∀ (ws : List GoStr) (acc out : List GoStr),
      flattenLoop a fuel ws acc = some out → ∃ t, out = acc ++ t := by
  intro ws
  induction ws with
  | nil =>
    intro acc out h
    unfold flattenLoop at h
    exact ⟨[], by simp [← Option.some.inj h]⟩
  | cons w rest ih =>
    intro acc out h
    unfold flattenLoop at h
    split at h
    · exact ih acc out h
    · split at h
      · exact absurd h (by simp)
      rename_i fs _
      obtain ⟨t1, ht1⟩ := addAll_append fs acc
      obtain ⟨t2, ht2⟩ := ih _ out h
      exact ⟨t1 ++ t2, by rw [ht2, ht1, List.append_assoc]⟩

/-- The case loop only appends, and adds at most one phrase per case. -/
lemma pfcCaseLoop_bound (a : Analyzer) (fuel : Nat) (pairs : List (GoStr × wordInfo))
    (head : wordInfo) (number : GoStr) :
    ∀ (cs : List GoStr) (acc out : List GoStr),
      pfcCaseLoop a fuel pairs head number cs acc = some out →
      (∃ t, out = acc ++ t) ∧ out.length ≤ acc.length + cs.length := by
  intro cs
  induction cs with
  | nil =>
    intro acc out h
    unfold pfcCaseLoop at h
    have := Option.some.inj h
    subst this
    exact ⟨⟨[], by simp⟩, by simp⟩
  | cons c rest ih =>
    intro acc out h
    unfold pfcCaseLoop at h
    split at h
    · exact absurd h (by simp)
    rename_i declined _
    obtain ⟨⟨t, ht⟩, hlen⟩ := ih _ out h
    by_cases hf : joinSpace declined ∈ acc
    · rw [if_pos hf] at ht hlen
      exact ⟨⟨t, ht⟩, by simp only [List.length_cons]; omega⟩
    · rw [if_neg hf] at ht hlen
      refine ⟨⟨[joinSpace declined] ++ t, by rw [ht, List.append_assoc]⟩, ?_⟩
      simp only [List.length_append, List.length_cons, List.length_nil] at hlen ⊢
      omega

/-- The number loop only appends, and adds at most `6` phrases per
number (one per case). -/
lemma pfcProductLoop_bound (a : Analyzer) (fuel : Nat) (pairs : List (GoStr × wordInfo))
    (head : wordInfo) :
    ∀ (ns : List GoStr) (acc out : List GoStr),
      pfcProductLoop a fuel pairs head ns acc = some out →
      (∃ t, out = acc ++ t) ∧ out.length ≤ acc.length + ns.length * casesList.length := by
  intro ns
  induction ns with
  | nil =>
    intro acc out h
    unfold pfcProductLoop at h
    have := Option.some.inj h
    subst this
    exact ⟨⟨[], by simp⟩, by simp⟩
  | cons nu rest ih =>
    intro acc out h
    unfold pfcProductLoop at h
    split at h
    · exact absurd h (by simp)
    rename_i acc2 hcase
    obtain ⟨⟨t1, ht1⟩, hlen1⟩ := pfcCaseLoop_bound a fuel pairs head nu casesList acc acc2 hcase
    obtain ⟨⟨t2, ht2⟩, hlen2⟩ := ih acc2 out h
    refine ⟨⟨t1 ++ t2, by rw [ht2, ht1, List.append_assoc]⟩, ?_⟩
    have hc : casesList.length = 6 := by decide
    simp only [List.length_cons, hc] at hlen1 hlen2 ⊢
    omega

/-- C2, counterexample: for the known single-token phrase "b" (whose
first entry is form 1 of its paradigm), the result is `WordForms "b"` =
["a", "b"], whose first element is the paradigm's first form "a", not
the lowercased trimmed phrase "b". -/
theorem c2_counterexample :
    aConc.PhraseFormsConcordant 100 (gs "b") = some [gs "a", gs "b"] ∧
    toLowerGo (trimSpaceGo (gs "b")) = gs "b" ∧
    ([gs "a", gs "b"] : List GoStr).head? ≠ some (gs "b") :=
  ⟨evalPFCsingleB, by decide, by decide⟩

/-- C2, amended: for every phrase of two or more tokens the first
element of the result is the lowercased trimmed phrase (both the
head-driven product branch and the no-head flatten branch start from
it).  For a single token the result is `word_forms(token)` when
non-empty — whose first element is the paradigm's first form, not
necessarily the input (see the counterexample) — and `[token]`
otherwise. -/
theorem c2_amended (a : Analyzer) (fuel : Nat) (phrase : GoStr) (res : List GoStr)
    (h : a.PhraseFormsConcordant fuel phrase = some res)
    (hlen : 2 ≤ (fieldsGo (toLowerGo (trimSpaceGo phrase))).length) :
    res.head? = some (toLowerGo (trimSpaceGo phrase)) := by
  unfold Analyzer.PhraseFormsConcordant at h
  split at h
  · rename_i heq
    rw [heq] at hlen
    simp at hlen
  · rename_i w heq
    rw [heq] at hlen
    simp at hlen
  rename_i w1 w2 ws heq
  split at h
  · exact absurd h (by simp)
  rename_i infos hinfos
  split at h
  · obtain ⟨t, ht⟩ := flattenLoop_append a fuel (w1 :: w2 :: ws) _ res h
    rw [ht]
    rfl
  · rename_i k hk
    obtain ⟨⟨t, ht⟩, _⟩ := pfcProductLoop_bound a fuel _ _ numbersList _ res h
    rw [ht]
    rfl

/-- C2, witness for the amended theorem: the two-token phrase "c c" (both
tokens unknown) keeps the phrase itself as the first element. -/
theorem c2_witness :
    ([gs "c c"] : List GoStr).head? = some (toLowerGo (trimSpaceGo (gs "c c"))) :=
  c2_amended aConc 100 (gs "c c") [gs "c c"] evalPFCcc (by decide)

/-- C10: for a multi-token phrase with a grammatical head, the result
holds the original phrase plus at most one phrase per (number, case)
combination — 2 × 6 — so at most 13 elements after de-duplication. -/
theorem c10_confirmed (a : Analyzer) (fuel : Nat) (phrase : GoStr) (res : List GoStr)
    (infos : List wordInfo) (k : Nat)
    (h : a.PhraseFormsConcordant fuel phrase = some res)
    (hlen : 2 ≤ (fieldsGo (toLowerGo (trimSpaceGo phrase))).length)
    (hinfos : computeInfos a fuel (fieldsGo (toLowerGo (trimSpaceGo phrase))) = some infos)
    (hk : headIdxOf infos = some k) :
    res.length ≤ 13 := by
  unfold Analyzer.PhraseFormsConcordant at h
  split at h
  · rename_i heq
    rw [heq] at hlen
    simp at hlen
  · rename_i w heq
    rw [heq] at hlen
    simp at hlen
  rename_i w1 w2 ws heq
  rw [heq] at hinfos
  split at h
  · rename_i hnone
    rw [hinfos] at hnone
    exact absurd hnone (by simp)
  rename_i infos2 hinfos2
  have hii : infos2 = infos := by
    rw [hinfos] at hinfos2
    exact (Option.some.inj hinfos2).symm
  subst hii
  split at h
  · rename_i hnone2
    rw [hk] at hnone2
    exact absurd hnone2 (by simp)
  rename_i k2 hk2
  obtain ⟨_, hbound⟩ := pfcProductLoop_bound a fuel _ _ numbersList _ res h
  have hn2 : numbersList.length = 2 := by decide
  have hc6 : casesList.length = 6 := by decide
  simp only [hn2, hc6, List.length_cons, List.length_nil] at hbound
  omega

/-- C10, witness: the two-token phrase "b b" with head "b" produces 2
elements, within the bound of 13. -/
theorem c10_witness : ([gs "b b", gs "a a"] : List GoStr).length ≤ 13 :=
  c10_confirmed aConc 100 (gs "b b") [gs "b b", gs "a a"] [infoB, infoB] 1
    evalPFCbb (by decide)
    (by rw [(by decide : toLowerGo (trimSpaceGo (gs "b b")) = gs "b b"),
            (by decide : fieldsGo (gs "b b") = [gs "b", gs "b"])]
        exact evalInfosBB)
    (by decide)
